import Mathlib

/-!
Verification development for the isotools transcriptome-reconstruction core.

The repository ships the core as a Python package; the files at hand are the
tutorial notebooks that exercise it (`03_transcriptome_reconstruction.ipynb`,
`06_filtering.ipynb`, `02_api_vs_cli.ipynb`).  The definitions below are a
shallow embedding of the documented core, modelled from the design
specification, and the theorems settle the frozen claims against them.
-/

namespace Isotools

/-! ### Genomic basics -/

/-- Modelled from the spec: an exon is a half-open genomic interval. -/
abbrev Exon := Nat × Nat

/-- Modelled from the spec (glossary): an exon chain is the ordered list of
disjoint genomic intervals of one transcript or alignment. -/
abbrev ExonChain := List Exon

/-- Modelled from the spec (glossary): the intron chain is the ordered list of
gaps between consecutive exons of an exon chain. -/
def introns : ExonChain → List (Nat × Nat)
  | [] => []
  | [_] => []
  | (_, e1) :: (s2, e2) :: rest => (e1, s2) :: introns ((s2, e2) :: rest)

/-- Genomic span of an exon chain: first exon start to last exon end. -/
def spanOf (e : ExonChain) : Nat × Nat := ((e.headD (0, 0)).1, (e.getLastD (0, 0)).2)

/-- Base-pair overlap of two intervals (0 when disjoint). -/
def olap (a b : Nat × Nat) : Nat := min a.2 b.2 - max a.1 b.1

/-- Length of an interval. -/
def ivLen (a : Nat × Nat) : Nat := a.2 - a.1

/-- Transcription start site of an exon chain (5-prime boundary). -/
def tssOf (e : ExonChain) : Nat := (e.headD (0, 0)).1

/-- Poly-A site of an exon chain (3-prime boundary). -/
def pasOf (e : ExonChain) : Nat := (e.getLastD (0, 0)).2

/-! ### 4.4 Transcript Clusterer and Merger -/

/-- Modelled from the spec (4.4, design note): the tunable configuration of the
clusterer, here the fractional-overlap threshold `monoNum / monoDen` for
mono-exon transcript matching. -/
structure ClusterCfg where
  monoNum : Nat
  monoDen : Nat
deriving DecidableEq

/-- Modelled from the spec (6): a finalized read is its decoded exon chain
(the alignment-record source is an external collaborator). -/
abbrev Read := ExonChain

/-- Modelled from the spec (3): a transcript model owned by a gene: exon
chain, total read coverage, per-sample coverage and per-sample raw TSS/PAS
position histograms. -/
structure ClusterTr where
  exons : ExonChain
  total : Nat
  cov : Nat → Nat
  tssHist : Nat → List (Nat × Nat)
  pasHist : Nat → List (Nat × Nat)

/-- The all-zero transcript, used as `getD` fallback. -/
def dummyTr : ClusterTr := ⟨[], 0, fun _ => 0, fun _ => [], fun _ => []⟩

/-- Modelled from the spec (4.4): mono-exon chains match iff their intervals
overlap above the configurable fractional-overlap threshold (relative to the
shorter interval). -/
def monoMatch (cfg : ClusterCfg) (a b : ExonChain) : Bool :=
  cfg.monoNum * min (ivLen (spanOf a)) (ivLen (spanOf b)) ≤ cfg.monoDen * olap (spanOf a) (spanOf b)

/-- Modelled from the spec (4.4): a multi-exon chain matches a transcript iff
the intron chains are identical; mono-exon chains match a mono-exon transcript
iff they overlap above the threshold. -/
def matchRead (cfg : ClusterCfg) (r : Read) (t : ClusterTr) : Bool :=
  if (introns r).isEmpty && (introns t.exons).isEmpty then monoMatch cfg r t.exons
  else introns r == introns t.exons

/-- Bump a position histogram: add one observation of position `p`. -/
def hBump (p : Nat) : List (Nat × Nat) → List (Nat × Nat)
  | [] => [(p, 1)]
  | (q, c) :: rest => if p = q then (q, c + 1) :: rest else (q, c) :: hBump p rest

/-- Modelled from the spec (4.4): a fresh transcript model, initialized with
this sample's coverage 1 and this occurrence's boundaries seeded into the
TSS/PAS histograms. -/
def newTr (s : Nat) (r : Read) : ClusterTr :=
  ⟨r, 1,
   fun s2 => if s2 = s then 1 else 0,
   fun s2 => if s2 = s then [(tssOf r, 1)] else [],
   fun s2 => if s2 = s then [(pasOf r, 1)] else []⟩

/-- Modelled from the spec (4.4): a match increments that sample's coverage and
merges the boundary positions into the histograms. -/
def bumpTr (s : Nat) (r : Read) (t : ClusterTr) : ClusterTr :=
  ⟨t.exons, t.total + 1,
   fun s2 => if s2 = s then t.cov s2 + 1 else t.cov s2,
   fun s2 => if s2 = s then hBump (tssOf r) (t.tssHist s2) else t.tssHist s2,
   fun s2 => if s2 = s then hBump (pasOf r) (t.pasHist s2) else t.pasHist s2⟩

/-- Modelled from the spec (4.4): an incoming exon chain is compared against
the existing transcript models; the first match is incremented, and no match
creates a new transcript model. -/
def insertRead (cfg : ClusterCfg) (s : Nat) (r : Read) : List ClusterTr → List ClusterTr
  | [] => [newTr s r]
  | t :: ts => if matchRead cfg r t then bumpTr s r t :: ts else t :: insertRead cfg s r ts

/-- Modelled from the spec (4.4): integrate all reads of sample `s` (the reads
assigned to this gene) into the gene's transcript list. -/
def integrateSample (cfg : ClusterCfg) (s : Nat) (trs : List ClusterTr) (rs : List Read) :
    List ClusterTr :=
  rs.foldl (fun acc r => insertRead cfg s r acc) trs

/-- Integrate the samples in order, numbering them from `s0`. -/
def integrateFrom (cfg : ClusterCfg) (s0 : Nat) (trs : List ClusterTr) :
    List (List Read) → List ClusterTr
  | [] => trs
  | rs :: rest => integrateFrom cfg (s0 + 1) (integrateSample cfg s0 trs rs) rest

/-- Modelled from the spec (4.4, 5): sample ingestion is sequential across
samples; each sample's reads are clustered against the transcripts created by
the earlier samples. -/
def integrateSamples (cfg : ClusterCfg) (samples : List (List Read)) : List ClusterTr :=
  integrateFrom cfg 0 [] samples

/-- Per-sample column sum of the gene's coverage matrix. -/
def covSum (s : Nat) (trs : List ClusterTr) : Nat := (trs.map (fun t => t.cov s)).sum

/-- Total coverage accumulated on the transcripts whose intron chain is `k`. -/
def keyCov (k : List (Nat × Nat)) (trs : List ClusterTr) : Nat :=
  ((trs.filter (fun t => introns t.exons == k)).map (fun t => t.total)).sum

/-! ### 4.5 Novelty Classifier -/

/-- Modelled from the spec (4.5): full-splice-match test of an exon chain
against one reference exon chain: identical intron chain; a mono-exon chain
additionally needs overlap with the mono-exon reference. -/
def fsmMatch (ref e : ExonChain) : Bool :=
  introns ref == introns e && (!(introns e).isEmpty || 0 < olap (spanOf ref) (spanOf e))

/-- Indices of the reference transcripts that the chain fully splice-matches. -/
def fsmIdx (refs : List ExonChain) (e : ExonChain) : List Nat :=
  (List.range refs.length).filter (fun i => fsmMatch (refs.getD i []) e)

/-- Test that `a` is an initial segment of the second list. -/
def startsWith : List (Nat × Nat) → List (Nat × Nat) → Bool
  | [], _ => true
  | _ :: _, [] => false
  | x :: xs, y :: ys => x == y && startsWith xs ys

/-- Test that `a` occurs in the second list as a contiguous segment. -/
def segOf (a : List (Nat × Nat)) : List (Nat × Nat) → Bool
  | [] => startsWith a []
  | y :: ys => startsWith a (y :: ys) || segOf a ys

/-- Modelled from the spec (4.5): incomplete splice match: the intron chain is
a contiguous subsequence of a reference intron chain. -/
def ismIdx (refs : List ExonChain) (e : ExonChain) : List Nat :=
  (List.range refs.length).filter
    (fun i => !(introns e).isEmpty && segOf (introns e) (introns (refs.getD i [])))

/-- All annotated splice junctions of the gene's reference transcripts. -/
def refJunctions (refs : List ExonChain) : List (Nat × Nat) := (refs.map introns).flatten

/-- Modelled from the spec (4.5): novel-in-catalog: every individual splice
junction exists in some reference transcript, but the combination is novel. -/
def nicOk (refs : List ExonChain) (e : ExonChain) : Bool :=
  !(introns e).isEmpty && (introns e).all (fun j => (refJunctions refs).contains j)

/-- Modelled from the spec (4.5): decision order of the novelty classifier,
first match wins: FSM (0), ISM (1), NIC (2), NNC (3), NOVEL (4).  The result
is the transcript's annot value: primary category id, and the mapping of
labels to matched reference transcript indices. -/
def classify (refs : List ExonChain) (gspan : Nat × Nat) (e : ExonChain) :
    Nat × List (String × List Nat) :=
  if fsmIdx refs e ≠ [] then (0, [("FSM", fsmIdx refs e)])
  else if ismIdx refs e ≠ [] then (1, [("ISM", ismIdx refs e)])
  else if nicOk refs e then (2, [("novel combination", [])])
  else if 0 < olap gspan (spanOf e) then (3, [("novel junction", [])])
  else (4, [("intergenic", [])])

/-! ### 4.4 TSS and PAS unification -/

/-- Total observation count of a position histogram. -/
def histTotal (h : List (Nat × Nat)) : Nat := (h.map (fun x => x.2)).sum

/-- Group the entries of a position-sorted histogram into clusters of
positions at most `w` apart from their neighbour. -/
def groupWithin (w : Nat) : List (Nat × Nat) → List (List (Nat × Nat))
  | [] => []
  | x :: xs =>
    match groupWithin w xs with
    | [] => [[x]]
    | g :: gs =>
      match g with
      | [] => [x] :: gs
      | y :: _ => if y.1 ≤ x.1 + w then (x :: g) :: gs else [x] :: g :: gs

/-- Representative site of a cluster: the position with the largest count. -/
def modeOf (g : List (Nat × Nat)) : Nat :=
  (g.foldl (fun best x => if best.2 < x.2 then x else best) (g.headD (0, 0))).1

/-- Modelled from the spec (4.4): TSS/PAS histograms are clustered by grouping
raw positions within a small genomic window `w` and collapsing each cluster to
its mode, keeping the cluster's total count. -/
def unify (w : Nat) (h : List (Nat × Nat)) : List (Nat × Nat) :=
  (groupWithin w (List.insertionSort (fun a b => a.1 ≤ b.1) h)).map
    (fun g => (modeOf g, histTotal g))

/-! ### 4.2 Chimeric Read Resolver -/

/-- Modelled from the spec (6): one alignment part of a chimeric read, in read
order: reference sequence name, strand (`true` is forward), exon chain. -/
structure AlnPart where
  chrom : String
  strand : Bool
  exons : ExonChain
deriving DecidableEq

/-- All parts map to permitted reference sequences. -/
def partsPermitted (permitted : List String) (parts : List AlnPart) : Bool :=
  parts.all (fun p => permitted.contains p.chrom)

/-- Modelled from the spec (4.2): consecutive parts chain when they share
chromosome and strand and progress along the genome (increasing for the
forward strand, decreasing for the reverse strand) within an acceptable gap. -/
def chainStep (maxGap : Nat) (p q : AlnPart) : Bool :=
  p.chrom == q.chrom && p.strand == q.strand &&
    (if p.strand then
      (spanOf p.exons).2 ≤ (spanOf q.exons).1 && (spanOf q.exons).1 ≤ (spanOf p.exons).2 + maxGap
    else
      (spanOf q.exons).2 ≤ (spanOf p.exons).1 && (spanOf p.exons).1 ≤ (spanOf q.exons).2 + maxGap)

/-- The parts form a single consistent genomic progression in read order. -/
def chainable (maxGap : Nat) : List AlnPart → Bool
  | [] => false
  | [_] => true
  | p :: q :: rest => chainStep maxGap p q && chainable maxGap (q :: rest)

/-- Outcome of resolving one chimeric alignment. -/
inductive ChimOutcome where
  | chained (exons : ExonChain)
  | unaligned
  | unreconciled
deriving DecidableEq

/-- Modelled from the spec (4.2): if a part maps outside the permitted
reference sequences the alignment is discarded with the distinct
unaligned-part reason; if the parts are order-consistent they are concatenated
into one combined exon chain; otherwise the alignment stays chimeric. -/
def resolveChimeric (maxGap : Nat) (permitted : List String) (parts : List AlnPart) :
    ChimOutcome :=
  if !partsPermitted permitted parts then .unaligned
  else if chainable maxGap parts then .chained ((parts.map (fun p => p.exons)).flatten)
  else .unreconciled

/-! ### 6 Alignment input and per-sample summary counters -/

/-- Modelled from the spec (6): one decoded alignment record: flag filter
verdict (secondary/duplicate/failed-QC), aligned fraction of the read in
percent, and the alignment parts (one part for a nonchimeric read). -/
structure AlnRead where
  flagged : Bool
  fracPct : Nat
  parts : List AlnPart
deriving DecidableEq

/-- Classification of one input record during sample import. -/
inductive ReadOutcome where
  | skipFlag
  | skipFrac
  | nonchim
  | chimUnaligned
  | chimKeep (parts : List AlnPart)
deriving DecidableEq

/-- Modelled from the spec (4.1, 4.2, 7): per-read import decision: flagged
reads and reads below the minimum aligned fraction are skipped; chimeric reads
are resolved, a chained chimeric alignment is treated as a normal read
henceforth. -/
def outcomeOf (maxGap : Nat) (permitted : List String) (minFracPct : Nat) (r : AlnRead) :
    ReadOutcome :=
  if r.flagged then .skipFlag
  else if r.fracPct < minFracPct then .skipFrac
  else match r.parts with
  | [_] => .nonchim
  | _ =>
    match resolveChimeric maxGap permitted r.parts with
    | .chained _ => .nonchim
    | .unaligned => .chimUnaligned
    | .unreconciled => .chimKeep r.parts

/-- Modelled from the spec (6): the observable per-sample summary counters. -/
structure SampleStats where
  skipFlag : Nat
  skipFrac : Nat
  chimUnaligned : Nat
  chimLowCov : Nat
  importedNonchim : Nat
  importedChim : Nat
deriving DecidableEq

/-- The unreconciled chimeric alignments of a sample, by their part lists. -/
def chimList (maxGap : Nat) (permitted : List String) (minFracPct : Nat)
    (reads : List AlnRead) : List (List AlnPart) :=
  (reads.map (outcomeOf maxGap permitted minFracPct)).filterMap
    (fun o => match o with | .chimKeep ps => some ps | _ => none)

/-- Modelled from the spec (4.2, 6): import one sample: count each outcome, keep
the reconciled chimeric transcripts that recur with coverage at least 2 within
the sample, drop and count the ones below that. -/
def importSample (maxGap : Nat) (permitted : List String) (minFracPct : Nat)
    (reads : List AlnRead) : SampleStats × List (List AlnPart) :=
  let outs := reads.map (outcomeOf maxGap permitted minFracPct)
  let chims := chimList maxGap permitted minFracPct reads
  let retained := chims.filter (fun ps => 2 ≤ chims.count ps)
  let dropped := chims.filter (fun ps => chims.count ps < 2)
  ⟨{ skipFlag := outs.count .skipFlag
     skipFrac := outs.count .skipFrac
     chimUnaligned := outs.count .chimUnaligned
     chimLowCov := dropped.length
     importedNonchim := outs.count .nonchim
     importedChim := retained.length },
   retained.dedup⟩

/-! ### 6 Reference annotation input -/

/-- Modelled from the spec (6): one record of the reference annotation reader:
gene records, transcript records grouped under a gene id, exon records, and
records of a category not recognized as gene/transcript/exon. -/
inductive RefRecord where
  | gene (gid : String)
  | transcript (gid tid : String) (exons : ExonChain)
  | exon (tid : String) (iv : Nat × Nat)
  | other (category : String)
deriving DecidableEq

/-- State accumulated by the reference import. -/
structure RefState where
  explicitGenes : List String
  trGenes : List String
  trRecs : List (String × String × ExonChain)
  skipped : List String
deriving DecidableEq

/-- Insert a string into a list unless already present. -/
def insertUnique (x : String) (l : List String) : List String :=
  if x ∈ l then l else l ++ [x]

/-- Modelled from the spec (6, 7): process one annotation record: recognized
categories update the gene/transcript tables, unrecognized categories are
recorded as skipped; no record aborts the import. -/
def refStep (st : RefState) (r : RefRecord) : RefState :=
  match r with
  | .gene g => { st with explicitGenes := insertUnique g st.explicitGenes }
  | .transcript g t e =>
      { st with trGenes := insertUnique g st.trGenes, trRecs := st.trRecs ++ [(g, t, e)] }
  | .exon _ _ => st
  | .other c => { st with skipped := insertUnique c st.skipped }

/-- Modelled from the spec (6): `Transcriptome.from_reference`, reduced to the
record walk: the whole annotation is folded through `refStep`. -/
def from_reference (recs : List RefRecord) : RefState :=
  recs.foldl refStep ⟨[], [], [], []⟩

/-- Modelled from the spec (6): genes declared only implicitly via their
transcripts, with no explicit gene record; their number is reported as
missing genes. -/
def missingGenes (recs : List RefRecord) : Nat :=
  (((from_reference recs).trGenes).filter
    (fun g => ¬ g ∈ (from_reference recs).explicitGenes)).length

/-! ### 4.6 and 4.7 Query evaluation and filtered iteration -/

/-- Modelled from the spec (6): the query grammar: tag identifiers combined
with and, or, not. -/
inductive QExpr where
  | tag (s : String)
  | conj (a b : QExpr)
  | disj (a b : QExpr)
  | neg (a : QExpr)

/-- Modelled from the spec (4.6): evaluate a query against the set of tags
that hold for an object. -/
def qeval (tags : List String) : QExpr → Bool
  | .tag s => tags.contains s
  | .conj a b => qeval tags a && qeval tags b
  | .disj a b => qeval tags a || qeval tags b
  | .neg a => !qeval tags a

/-- Modelled from the spec (4.7): a transcript as seen by the iteration layer:
its evaluated tag set and its total coverage. -/
structure IterTr where
  tags : List String
  totalCov : Nat
deriving DecidableEq

/-- Modelled from the spec (4.7): a gene as seen by the iteration layer. -/
structure IterGene where
  start : Nat
  stop : Nat
  trs : List IterTr
deriving DecidableEq

/-- The transcripts of one gene that pass the query and the minimum coverage,
as (gene, transcript index, transcript) triples in index order. -/
def trBlock (q : QExpr) (minCov : Nat) (g : IterGene) : List (IterGene × Nat × IterTr) :=
  (List.range g.trs.length).filterMap fun i =>
    match g.trs.get? i with
    | some t => if qeval t.tags q = true ∧ minCov ≤ t.totalCov then some (g, i, t) else none
    | none => none

/-- Modelled from the spec (4.7): `Transcriptome.iter_transcripts`: walk the
genes in genomic order and yield the (gene, transcript index, transcript)
triples that pass the transcript query and the per-transcript minimum
coverage. -/
def iter_transcripts (genes : List IterGene) (q : QExpr) (minCov : Nat) :
    List (IterGene × Nat × IterTr) :=
  ((List.insertionSort (fun g1 g2 => g1.start ≤ g2.start) genes).map (trBlock q minCov)).flatten

/-- Order of the yielded triples: by gene start, then transcript index. -/
def tripleBefore (a b : IterGene × Nat × IterTr) : Prop :=
  a.1.start < b.1.start ∨ (a.1 = b.1 ∧ a.2.1 < b.2.1)

/-! ### Gene lookup by id or name -/

/-- Modelled from the spec (3) and the notebooks: a gene has a stable id and
an optional name. -/
structure TGene where
  gid : String
  name : Option String
  start : Nat
  stop : Nat
deriving DecidableEq

/-- Modelled from the notebooks: `Transcriptome.__getitem__`: the square
bracket operator retrieves a gene by gene id or by gene name. -/
def getItem (genes : List TGene) (key : String) : Option TGene :=
  genes.find? (fun g => g.gid == key || g.name == some key)

/-! ## Lemmas and claim theorems -/

theorem covSum_nil (s : Nat) : covSum s [] = 0 := rfl

theorem covSum_cons (s : Nat) (t : ClusterTr) (ts : List ClusterTr) :
    covSum s (t :: ts) = t.cov s + covSum s ts := by
  simp [covSum]

theorem covSum_insertRead (cfg : ClusterCfg) (s s2 : Nat) (r : Read) (trs : List ClusterTr) :
    covSum s (insertRead cfg s2 r trs) = covSum s trs + (if s = s2 then 1 else 0) := by
  induction trs with
  | nil =>
    by_cases h : s = s2 <;> simp [covSum, insertRead, newTr, h]
  | cons t ts ih =>
    simp only [insertRead]
    by_cases h : matchRead cfg r t
    · by_cases hs : s = s2 <;>
        simp [h, covSum_cons, bumpTr, hs] <;> omega
    · simp only [h, if_neg, Bool.false_eq_true, ite_false, covSum_cons, ih]
      omega

theorem covSum_integrateSample (cfg : ClusterCfg) (s s2 : Nat) (trs : List ClusterTr)
    (rs : List Read) :
    covSum s (integrateSample cfg s2 trs rs) =
      covSum s trs + (if s = s2 then rs.length else 0) := by
  induction rs generalizing trs with
  | nil => simp [integrateSample]
  | cons r rs ih =>
    simp only [integrateSample, List.foldl_cons]
    have := ih (insertRead cfg s2 r trs)
    simp only [integrateSample] at this
    rw [this, covSum_insertRead]
    by_cases hs : s = s2 <;> simp [hs, List.length_cons] <;> omega

theorem covSum_integrateFrom (cfg : ClusterCfg) (s : Nat) :
    ∀ (samples : List (List Read)) (s0 : Nat) (trs : List ClusterTr),
      covSum s (integrateFrom cfg s0 trs samples) =
        covSum s trs + (if s0 ≤ s then (samples.getD (s - s0) []).length else 0)
  | [], s0, trs => by
    simp [integrateFrom, List.getD]
  | rs :: rest, s0, trs => by
    simp only [integrateFrom]
    rw [covSum_integrateFrom cfg s rest (s0 + 1) (integrateSample cfg s0 trs rs),
      covSum_integrateSample]
    rcases Nat.lt_trichotomy s s0 with h | h | h
    · rw [if_neg (by omega), if_neg (by omega), if_neg (by omega)]
    · subst h
      rw [if_pos rfl, if_neg (by omega), if_pos (by omega)]
      simp
    · rw [if_neg (by omega), if_pos (by omega), if_pos (by omega)]
      have hs : s - s0 = (s - (s0 + 1)) + 1 := by omega
      rw [hs, List.getD_cons_succ]
      omega

/-- C2: for every gene and every sample, the per-sample coverage summed over
all transcripts of the gene equals the number of reads assigned to that gene
for that sample (conservation law). -/
theorem coverage_conservation (cfg : ClusterCfg) (samples : List (List Read)) (s : Nat) :
    covSum s (integrateSamples cfg samples) = (samples.getD s []).length := by
  have := covSum_integrateFrom cfg s samples 0 []
  simpa [integrateSamples, covSum_nil] using this

theorem keyCov_nil (k : List (Nat × Nat)) : keyCov k [] = 0 := rfl

theorem keyCov_cons (k : List (Nat × Nat)) (t : ClusterTr) (ts : List ClusterTr) :
    keyCov k (t :: ts) = (if introns t.exons = k then t.total else 0) + keyCov k ts := by
  by_cases h : introns t.exons = k <;> simp [keyCov, h]

theorem matchRead_multi (cfg : ClusterCfg) (r : Read) (t : ClusterTr) (hr : introns r ≠ [])
    (h : matchRead cfg r t = true) : introns t.exons = introns r := by
  unfold matchRead at h
  have hre : (introns r).isEmpty = false := by
    cases hi : introns r with
    | nil => exact absurd hi hr
    | cons a l => rfl
  rw [hre] at h
  simp at h
  exact h.symm

theorem keyCov_insertRead (cfg : ClusterCfg) (s : Nat) (r : Read) (k : List (Nat × Nat))
    (trs : List ClusterTr) (hr : introns r ≠ []) :
    keyCov k (insertRead cfg s r trs) = keyCov k trs + (if introns r = k then 1 else 0) := by
  induction trs with
  | nil =>
    by_cases h : introns r = k <;> simp [keyCov, insertRead, newTr, h]
  | cons t ts ih =>
    simp only [insertRead]
    by_cases h : matchRead cfg r t
    · have ht := matchRead_multi cfg r t hr h
      simp only [h, ite_true]
      rw [keyCov_cons, keyCov_cons]
      simp only [bumpTr, ht]
      by_cases hk : introns r = k <;> simp [hk] <;> omega
    · simp only [h, Bool.false_eq_true, ite_false]
      rw [keyCov_cons, keyCov_cons, ih]
      omega

theorem keyCov_integrateSample (cfg : ClusterCfg) (s : Nat) (k : List (Nat × Nat))
    (trs : List ClusterTr) (rs : List Read) (hrs : ∀ r ∈ rs, introns r ≠ []) :
    keyCov k (integrateSample cfg s trs rs) =
      keyCov k trs + rs.countP (fun r => introns r == k) := by
  induction rs generalizing trs with
  | nil => simp [integrateSample]
  | cons r rs ih =>
    simp only [integrateSample, List.foldl_cons]
    have hr : introns r ≠ [] := hrs r (List.mem_cons_self r rs)
    have := ih (insertRead cfg s r trs) (fun r2 h2 => hrs r2 (List.mem_cons_of_mem r h2))
    simp only [integrateSample] at this
    rw [this, keyCov_insertRead cfg s r k trs hr, List.countP_cons]
    by_cases hk : introns r = k <;> simp [hk] <;> omega

/-- C4 counterexample: with the fractional-overlap matching of mono-exon
chains (threshold one half here), integrating sample A = {[0,100), [100,200)}
then sample B = {[50,150)} yields two transcripts, while integrating B then A
chains all three reads into one transcript: the final sets of exon chains with
their total coverage differ, so sample integration is not order-independent. -/
theorem clustering_order_dependent :
    (integrateSamples ⟨1, 2⟩ [[[(0, 100)], [(100, 200)]], [[(50, 150)]]]).map
        (fun t => (t.exons, t.total)) = [([(0, 100)], 2), ([(100, 200)], 1)] ∧
    (integrateSamples ⟨1, 2⟩ [[[(50, 150)]], [[(0, 100)], [(100, 200)]]]).map
        (fun t => (t.exons, t.total)) = [([(50, 150)], 3)] ∧
    ([(0, 100)], 2) ∈ (integrateSamples ⟨1, 2⟩ [[[(0, 100)], [(100, 200)]], [[(50, 150)]]]).map
        (fun t => (t.exons, t.total)) ∧
    ([(0, 100)], 2) ∉ (integrateSamples ⟨1, 2⟩ [[[(50, 150)]], [[(0, 100)], [(100, 200)]]]).map
        (fun t => (t.exons, t.total)) := by
  refine ⟨by decide, by decide, by decide, by decide⟩

/-- C4 (amended): for samples consisting of multi-exon reads, whose clustering
is by exact intron-chain identity, sample integration is order-independent:
integrating A then B gives every intron chain the same total coverage as
integrating B then A; only the per-sample attribution differs, by sample
identity.  (Mono-exon reads, matched by fractional overlap, break
order-independence, as the counterexample shows.) -/
theorem multiexon_clustering_commutes (cfg : ClusterCfg) (A B : List Read)
    (hA : ∀ r ∈ A, introns r ≠ []) (hB : ∀ r ∈ B, introns r ≠ []) (k : List (Nat × Nat)) :
    keyCov k (integrateSamples cfg [A, B]) = keyCov k (integrateSamples cfg [B, A]) := by
  simp only [integrateSamples, integrateFrom]
  rw [keyCov_integrateSample cfg 1 k _ B hB, keyCov_integrateSample cfg 0 k _ A hA,
    keyCov_integrateSample cfg 1 k _ A hA, keyCov_integrateSample cfg 0 k _ B hB]
  omega

/-- Witness for the amended C4 theorem at two concrete multi-exon samples. -/
theorem multiexon_clustering_commutes_witness :
    keyCov [(10, 20)]
        (integrateSamples ⟨1, 2⟩ [[[(0, 10), (20, 30)]], [[(0, 10), (20, 30)], [(5, 10), (40, 50)]]]) =
      keyCov [(10, 20)]
        (integrateSamples ⟨1, 2⟩ [[[(0, 10), (20, 30)], [(5, 10), (40, 50)]], [[(0, 10), (20, 30)]]]) :=
  multiexon_clustering_commutes ⟨1, 2⟩ [[(0, 10), (20, 30)]]
    [[(0, 10), (20, 30)], [(5, 10), (40, 50)]] (by decide) (by decide) [(10, 20)]

theorem mem_fsmIdx (refs : List ExonChain) (e : ExonChain) (i : Nat) (hi : i < refs.length)
    (hm : fsmMatch (refs.getD i []) e = true) : i ∈ fsmIdx refs e := by
  simp only [fsmIdx, List.mem_filter, List.mem_range]
  exact ⟨hi, hm⟩

/-- C3: a transcript whose exon chain exactly equals a reference transcript's,
imported with no boundary noise, is classified FSM, with that reference
transcript's index recorded in the FSM match list of the annot value. -/
theorem fsm_roundtrip (refs : List ExonChain) (gspan : Nat × Nat) (e : ExonChain) (i : Nat)
    (hi : i < refs.length) (heq : refs.getD i [] = e)
    (hsig : introns e ≠ [] ∨ 0 < olap (spanOf e) (spanOf e)) :
    (classify refs gspan e).1 = 0 ∧
    (classify refs gspan e).2 = [("FSM", fsmIdx refs e)] ∧ i ∈ fsmIdx refs e := by
  have hm : fsmMatch (refs.getD i []) e = true := by
    rw [heq]
    unfold fsmMatch
    simp only [beq_self_eq_true, Bool.true_and, Bool.or_eq_true, Bool.not_eq_eq_eq_not,
      Bool.not_true, decide_eq_true_eq]
    rcases hsig with h | h
    · left
      cases hI : introns e with
      | nil => exact absurd hI h
      | cons a l => rfl
    · right
      exact h
  have hmem : i ∈ fsmIdx refs e := mem_fsmIdx refs e i hi hm
  have hne : fsmIdx refs e ≠ [] := by
    intro hnil
    rw [hnil] at hmem
    exact absurd hmem (List.not_mem_nil i)
  unfold classify
  rw [if_pos hne]
  exact ⟨rfl, rfl, hmem⟩

/-- Witness for C3 at the spec's concrete scenario: one sample with one read
whose exon chain exactly matches reference transcript 0 of the gene (single
exon pair, intron at [100,200)): after import the gene has one transcript with
that sample's coverage 1 and annot value (0, FSM ↦ [0]). -/
theorem fsm_roundtrip_witness :
    (integrateSamples ⟨1, 2⟩ [[[(50, 100), (200, 250)]]]).map (fun t => (t.exons, t.total)) =
      [([(50, 100), (200, 250)], 1)] ∧
    ((integrateSamples ⟨1, 2⟩ [[[(50, 100), (200, 250)]]]).getD 0 dummyTr).cov 0 = 1 ∧
    (classify [[(50, 100), (200, 250)]] (50, 250) [(50, 100), (200, 250)]).1 = 0 ∧
    (classify [[(50, 100), (200, 250)]] (50, 250) [(50, 100), (200, 250)]).2 = [("FSM", [0])] ∧
    0 ∈ fsmIdx [[(50, 100), (200, 250)]] [(50, 100), (200, 250)] :=
  ⟨by decide, by decide,
    (fsm_roundtrip [[(50, 100), (200, 250)]] (50, 250) [(50, 100), (200, 250)] 0 (by decide)
      (by decide) (Or.inl (by decide))).1,
    by decide,
    (fsm_roundtrip [[(50, 100), (200, 250)]] (50, 250) [(50, 100), (200, 250)] 0 (by decide)
      (by decide) (Or.inl (by decide))).2.2⟩

/-- C1 counterexample: a transcript created by sample integration from a read
exactly matching the reference is classified FSM (category 0), yet its
subclass mapping, FSM ↦ [0], is non-empty — refuting that the mapping in the
annot value is non-empty only when the primary category is not FSM.  The
notebooks record the same shape for the primary RIPK2 transcript:
(0, FSM ↦ [1]). -/
theorem fsm_annot_mapping_nonempty :
    (classify [[(50, 100), (200, 250)]] (50, 250)
        (((integrateSamples ⟨1, 2⟩ [[[(50, 100), (200, 250)]]]).getD 0 dummyTr).exons)).1 = 0 ∧
    (classify [[(50, 100), (200, 250)]] (50, 250)
        (((integrateSamples ⟨1, 2⟩ [[[(50, 100), (200, 250)]]]).getD 0 dummyTr).exons)).2 ≠ [] := by
  refine ⟨by decide, by decide⟩

/-- C1 (amended): the primary novelty category is always exactly one of the
five categories FSM/ISM/NIC/NNC/NOVEL (ids 0..4); the subclass mapping is
always non-empty, and for an FSM transcript it holds exactly the FSM match
list (novelty subclass labels appear only for non-FSM categories). -/
theorem classify_category_sound (refs : List ExonChain) (gspan : Nat × Nat) (e : ExonChain) :
    (classify refs gspan e).1 < 5 ∧
    (classify refs gspan e).2 ≠ [] ∧
    ((classify refs gspan e).1 = 0 →
      (classify refs gspan e).2 = [("FSM", fsmIdx refs e)] ∧ fsmIdx refs e ≠ []) := by
  unfold classify
  split_ifs with h1 h2 h3 h4 <;> simp_all

/-- Witness for the amended C1 theorem at a concrete non-FSM input. -/
theorem classify_category_sound_witness :
    (classify [[(50, 100), (200, 250)]] (50, 250) [(300, 400)]).1 < 5 ∧
    (classify [[(50, 100), (200, 250)]] (50, 250) [(300, 400)]).2 ≠ [] ∧
    ((classify [[(50, 100), (200, 250)]] (50, 250) [(300, 400)]).1 = 0 →
      (classify [[(50, 100), (200, 250)]] (50, 250) [(300, 400)]).2 =
          [("FSM", fsmIdx [[(50, 100), (200, 250)]] [(300, 400)])] ∧
        fsmIdx [[(50, 100), (200, 250)]] [(300, 400)] ≠ []) :=
  classify_category_sound [[(50, 100), (200, 250)]] (50, 250) [(300, 400)]

theorem histTotal_nil : histTotal [] = 0 := rfl

theorem histTotal_cons (x : Nat × Nat) (h : List (Nat × Nat)) :
    histTotal (x :: h) = x.2 + histTotal h := by
  simp [histTotal]

theorem histTotal_append (a b : List (Nat × Nat)) :
    histTotal (a ++ b) = histTotal a + histTotal b := by
  simp [histTotal]

theorem histTotal_hBump (p : Nat) (h : List (Nat × Nat)) :
    histTotal (hBump p h) = histTotal h + 1 := by
  induction h with
  | nil => rfl
  | cons x rest ih =>
    simp only [hBump]
    by_cases hp : p = x.1
    · rw [if_pos hp, histTotal_cons, histTotal_cons]
      omega
    · rw [if_neg hp, histTotal_cons, histTotal_cons, ih]
      omega

theorem groupWithin_flatten (w : Nat) : ∀ l : List (Nat × Nat), (groupWithin w l).flatten = l
  | [] => rfl
  | x :: xs => by
    have ih := groupWithin_flatten w xs
    simp only [groupWithin]
    rcases h : groupWithin w xs with _ | ⟨g, gs⟩
    · rw [h] at ih
      simp only [List.flatten_nil] at ih
      simp [← ih]
    · rw [h] at ih
      rcases g with _ | ⟨y, t⟩
      · simp only [List.flatten_cons, List.nil_append] at ih
        simp [ih]
      · by_cases hc : y.1 ≤ x.1 + w
        · simp only [hc, ite_true, List.flatten_cons] at ih ⊢
          rw [List.cons_append, ih]
        · simp only [hc, ite_false, List.flatten_cons] at ih ⊢
          rw [List.singleton_append, ih]

theorem histTotal_sorted (h : List (Nat × Nat)) :
    histTotal (List.insertionSort (fun a b => a.1 ≤ b.1) h) = histTotal h := by
  unfold histTotal
  exact ((List.perm_insertionSort (fun a b => a.1 ≤ b.1) h).map (fun x => x.2)).sum_eq

theorem histTotal_flattenL : ∀ L : List (List (Nat × Nat)),
    histTotal L.flatten = (L.map histTotal).sum
  | [] => rfl
  | g :: gs => by
    rw [List.flatten_cons, histTotal_append, List.map_cons, List.sum_cons,
      histTotal_flattenL gs]

theorem histTotal_unify (w : Nat) (h : List (Nat × Nat)) :
    histTotal (unify w h) = histTotal h := by
  unfold unify
  have hmap : histTotal
      ((groupWithin w (List.insertionSort (fun a b => a.1 ≤ b.1) h)).map
        (fun g => (modeOf g, histTotal g))) =
      ((groupWithin w (List.insertionSort (fun a b => a.1 ≤ b.1) h)).map histTotal).sum := by
    unfold histTotal
    rw [List.map_map]
    rfl
  rw [hmap, ← histTotal_flattenL, groupWithin_flatten, histTotal_sorted]

theorem insertRead_hist_inv (cfg : ClusterCfg) (s2 : Nat) (r : Read) (trs : List ClusterTr)
    (hinv : ∀ t ∈ trs, ∀ s, histTotal (t.tssHist s) = t.cov s ∧ histTotal (t.pasHist s) = t.cov s) :
    ∀ t ∈ insertRead cfg s2 r trs, ∀ s,
      histTotal (t.tssHist s) = t.cov s ∧ histTotal (t.pasHist s) = t.cov s := by
  induction trs with
  | nil =>
    intro t ht s
    simp only [insertRead, List.mem_singleton] at ht
    subst ht
    by_cases hs : s = s2 <;> simp [newTr, hs, histTotal]
  | cons t0 ts ih =>
    intro t ht s
    simp only [insertRead] at ht
    by_cases h : matchRead cfg r t0
    · rw [if_pos h] at ht
      rcases List.mem_cons.1 ht with he | hm
      · subst he
        have h0 := hinv t0 (List.mem_cons_self t0 ts) s
        by_cases hs : s = s2
        · subst hs
          simp [bumpTr, histTotal_hBump, h0.1, h0.2]
        · simp [bumpTr, hs, h0.1, h0.2]
      · exact hinv t (List.mem_cons_of_mem t0 hm) s
    · rw [if_neg h] at ht
      rcases List.mem_cons.1 ht with he | hm
      · subst he
        exact hinv t (List.mem_cons_self t ts) s
      · exact ih (fun t2 h2 => hinv t2 (List.mem_cons_of_mem t0 h2)) t hm s

theorem integrateSample_hist_inv (cfg : ClusterCfg) (s2 : Nat) (rs : List Read)
    (trs : List ClusterTr)
    (hinv : ∀ t ∈ trs, ∀ s, histTotal (t.tssHist s) = t.cov s ∧ histTotal (t.pasHist s) = t.cov s) :
    ∀ t ∈ integrateSample cfg s2 trs rs, ∀ s,
      histTotal (t.tssHist s) = t.cov s ∧ histTotal (t.pasHist s) = t.cov s := by
  induction rs generalizing trs with
  | nil => exact hinv
  | cons r rest ih =>
    simp only [integrateSample, List.foldl_cons]
    exact ih (insertRead cfg s2 r trs) (insertRead_hist_inv cfg s2 r trs hinv)

theorem integrateFrom_hist_inv (cfg : ClusterCfg) :
    ∀ (samples : List (List Read)) (s0 : Nat) (trs : List ClusterTr),
      (∀ t ∈ trs, ∀ s, histTotal (t.tssHist s) = t.cov s ∧ histTotal (t.pasHist s) = t.cov s) →
      ∀ t ∈ integrateFrom cfg s0 trs samples, ∀ s,
        histTotal (t.tssHist s) = t.cov s ∧ histTotal (t.pasHist s) = t.cov s
  | [], _, _, hinv => hinv
  | rs :: rest, s0, trs, hinv =>
    integrateFrom_hist_inv cfg rest (s0 + 1) (integrateSample cfg s0 trs rs)
      (integrateSample_hist_inv cfg s0 rs trs hinv)

/-- C10: for every transcript and sample, after TSS/PAS unification the counts
of the unified TSS histogram sum to that sample's read coverage of the
transcript, and likewise for the unified PAS histogram: unification regroups
boundary positions but conserves the total read count per sample. -/
theorem unified_hist_conserves_coverage (cfg : ClusterCfg) (w : Nat)
    (samples : List (List Read)) (s i : Nat) :
    histTotal (unify w (((integrateSamples cfg samples).getD i dummyTr).tssHist s)) =
      ((integrateSamples cfg samples).getD i dummyTr).cov s ∧
    histTotal (unify w (((integrateSamples cfg samples).getD i dummyTr).pasHist s)) =
      ((integrateSamples cfg samples).getD i dummyTr).cov s := by
  have hinv : ∀ t ∈ integrateSamples cfg samples, ∀ s2,
      histTotal (t.tssHist s2) = t.cov s2 ∧ histTotal (t.pasHist s2) = t.cov s2 :=
    integrateFrom_hist_inv cfg samples 0 [] (by intro t ht; exact absurd ht (List.not_mem_nil t))
  by_cases hi : i < (integrateSamples cfg samples).length
  · have hmem : (integrateSamples cfg samples).getD i dummyTr ∈ integrateSamples cfg samples := by
      rw [List.getD_eq_getElem _ _ hi]
      exact List.getElem_mem hi
    have h := hinv _ hmem s
    rw [histTotal_unify, histTotal_unify]
    exact h
  · have hd : (integrateSamples cfg samples).getD i dummyTr = dummyTr :=
      List.getD_eq_default _ _ (by omega)
    rw [hd]
    exact ⟨by rw [histTotal_unify]; rfl, by rw [histTotal_unify]; rfl⟩

/-- C5: a chimeric read whose parts all map to permitted chromosomes and whose
order along the read is a single consistent genomic progression is
concatenated into one combined exon chain; a chimeric read with any part on a
chromosome outside the permitted set is discarded with the distinct
unaligned-part reason, before any chaining is attempted. -/
theorem resolve_chimeric_spec (maxGap : Nat) (permitted : List String) (parts : List AlnPart) :
    ((∃ p ∈ parts, permitted.contains p.chrom = false) →
      resolveChimeric maxGap permitted parts = .unaligned) ∧
    (partsPermitted permitted parts = true → chainable maxGap parts = true →
      resolveChimeric maxGap permitted parts = .chained ((parts.map (fun p => p.exons)).flatten)) := by
  constructor
  · rintro ⟨p, hp, hc⟩
    have hperm : partsPermitted permitted parts = false := by
      unfold partsPermitted
      rw [List.all_eq_false]
      exact ⟨p, hp, by rw [hc]; exact Bool.false_ne_true⟩
    unfold resolveChimeric
    rw [hperm]
    rfl
  · intro h1 h2
    unfold resolveChimeric
    rw [h1, h2]
    rfl

/-- Witness for C5 at the spec's concrete scenario: two parts on chromosome 8
in increasing order with a 50bp gap chain into one combined exon chain; adding
a third part on chromosome 5 discards the whole alignment as unaligned. -/
theorem resolve_chimeric_witness :
    resolveChimeric 100 ["chr8"]
        [⟨"chr8", true, [(100, 200)]⟩, ⟨"chr8", true, [(250, 350)]⟩] =
      .chained [(100, 200), (250, 350)] ∧
    resolveChimeric 100 ["chr8"]
        [⟨"chr8", true, [(100, 200)]⟩, ⟨"chr8", true, [(250, 350)]⟩,
         ⟨"chr5", true, [(400, 500)]⟩] = .unaligned :=
  ⟨((resolve_chimeric_spec 100 ["chr8"]
      [⟨"chr8", true, [(100, 200)]⟩, ⟨"chr8", true, [(250, 350)]⟩]).2
        (by decide) (by decide)).trans (by decide),
   (resolve_chimeric_spec 100 ["chr8"]
      [⟨"chr8", true, [(100, 200)]⟩, ⟨"chr8", true, [(250, 350)]⟩,
       ⟨"chr5", true, [(400, 500)]⟩]).1
        ⟨⟨"chr5", true, [(400, 500)]⟩, by decide, by decide⟩⟩

theorem filter_length_compl {α : Type} (l : List α) (f g : α → Bool)
    (h : ∀ x ∈ l, g x = !f x) :
    (l.filter f).length + (l.filter g).length = l.length := by
  induction l with
  | nil => rfl
  | cons x xs ih =>
    have hx := h x (List.mem_cons_self x xs)
    have hxs := ih (fun y hy => h y (List.mem_cons_of_mem x hy))
    cases hf : f x <;>
      simp [List.filter_cons, hf, hx] <;> omega

theorem outcome_partition : ∀ outs : List ReadOutcome,
    outs.count .skipFlag + outs.count .skipFrac + outs.count .chimUnaligned +
      outs.count .nonchim +
      (outs.filterMap (fun o => match o with | .chimKeep ps => some ps | _ => none)).length =
      outs.length
  | [] => rfl
  | o :: rest => by
    have ih := outcome_partition rest
    cases o <;> simp [List.count_cons, List.filterMap_cons] <;> omega

/-- C6: the sample importer accounts for its input completely: the per-sample
summary counters (reads skipped by flag filters, reads skipped by low aligned
fraction, chimeric reads with an unaligned part, chimeric reads below the
minimum coverage, imported nonchimeric and chimeric reads) sum to the number
of input reads, and a reconciled chimeric transcript is retained exactly when
its within-sample coverage is at least 2 — singletons are dropped and counted
in the low-coverage counter, never silently lost. -/
theorem import_sample_counters (maxGap : Nat) (permitted : List String) (minFracPct : Nat)
    (reads : List AlnRead) :
    (∀ ps, ps ∈ (importSample maxGap permitted minFracPct reads).2 ↔
      (ps ∈ chimList maxGap permitted minFracPct reads ∧
        2 ≤ (chimList maxGap permitted minFracPct reads).count ps)) ∧
    ((importSample maxGap permitted minFracPct reads).1.skipFlag +
      (importSample maxGap permitted minFracPct reads).1.skipFrac +
      (importSample maxGap permitted minFracPct reads).1.chimUnaligned +
      (importSample maxGap permitted minFracPct reads).1.chimLowCov +
      (importSample maxGap permitted minFracPct reads).1.importedNonchim +
      (importSample maxGap permitted minFracPct reads).1.importedChim = reads.length) := by
  constructor
  · intro ps
    simp only [importSample, List.mem_dedup, List.mem_filter, decide_eq_true_eq]
  · simp only [importSample]
    have hpart : ((chimList maxGap permitted minFracPct reads).filter
        (fun ps => (chimList maxGap permitted minFracPct reads).count ps < 2)).length +
        ((chimList maxGap permitted minFracPct reads).filter
          (fun ps => 2 ≤ (chimList maxGap permitted minFracPct reads).count ps)).length =
        (chimList maxGap permitted minFracPct reads).length := by
      apply filter_length_compl
      intro x _
      by_cases h2 : 2 ≤ (chimList maxGap permitted minFracPct reads).count x
      · simp [h2, Nat.not_lt.2 h2]
      · simp [h2, Nat.lt_of_not_le h2]
    have houts := outcome_partition (reads.map (outcomeOf maxGap permitted minFracPct))
    simp only [chimList] at hpart
    simp only [List.length_map] at houts
    unfold chimList at *
    omega

theorem mem_insertUnique (x y : String) (l : List String) :
    y ∈ insertUnique x l ↔ y ∈ l ∨ y = x := by
  unfold insertUnique
  by_cases h : x ∈ l
  · rw [if_pos h]
    constructor
    · exact Or.inl
    · rintro (hy | hy)
      · exact hy
      · rw [hy]; exact h
  · rw [if_neg h]
    simp

theorem foldl_refStep_skipped (recs : List RefRecord) : ∀ (st : RefState) (c : String),
    c ∈ (recs.foldl refStep st).skipped ↔ c ∈ st.skipped ∨ RefRecord.other c ∈ recs := by
  induction recs with
  | nil => simp
  | cons r rest ih =>
    intro st c
    rw [List.foldl_cons, ih]
    cases r <;> simp [refStep, mem_insertUnique] <;> tauto

theorem foldl_refStep_explicit (recs : List RefRecord) : ∀ (st : RefState) (g : String),
    g ∈ (recs.foldl refStep st).explicitGenes ↔
      g ∈ st.explicitGenes ∨ RefRecord.gene g ∈ recs := by
  induction recs with
  | nil => simp
  | cons r rest ih =>
    intro st g
    rw [List.foldl_cons, ih]
    cases r <;> simp [refStep, mem_insertUnique] <;> tauto

theorem foldl_refStep_trGenes (recs : List RefRecord) : ∀ (st : RefState) (g : String),
    g ∈ (recs.foldl refStep st).trGenes ↔
      g ∈ st.trGenes ∨ ∃ t e, RefRecord.transcript g t e ∈ recs := by
  induction recs with
  | nil => simp
  | cons r rest ih =>
    intro st g
    rw [List.foldl_cons, ih]
    cases r with
    | gene gid => simp [refStep]
    | exon tid iv => simp [refStep]
    | other c2 => simp [refStep]
    | transcript gid tid ex =>
      simp only [refStep, mem_insertUnique, List.mem_cons]
      constructor
      · rintro ((h | h) | ⟨t, e, h⟩)
        · exact Or.inl h
        · exact Or.inr ⟨tid, ex, Or.inl (by rw [h])⟩
        · exact Or.inr ⟨t, e, Or.inr h⟩
      · rintro (h | ⟨t, e, h | h⟩)
        · exact Or.inl (Or.inl h)
        · injection h with h1 h2 h3
          exact Or.inl (Or.inr h1)
        · exact Or.inr ⟨t, e, h⟩

theorem foldl_refStep_agree (recs : List RefRecord) : ∀ st1 st2 : RefState,
    st1.explicitGenes = st2.explicitGenes → st1.trGenes = st2.trGenes →
    st1.trRecs = st2.trRecs →
    (recs.foldl refStep st1).explicitGenes = (recs.foldl refStep st2).explicitGenes ∧
    (recs.foldl refStep st1).trGenes = (recs.foldl refStep st2).trGenes ∧
    (recs.foldl refStep st1).trRecs = (recs.foldl refStep st2).trRecs := by
  induction recs with
  | nil => exact fun st1 st2 h1 h2 h3 => ⟨h1, h2, h3⟩
  | cons r rest ih =>
    intro st1 st2 h1 h2 h3
    rw [List.foldl_cons, List.foldl_cons]
    cases r <;> exact ih _ _ (by simp [refStep, h1]) (by simp [refStep, h2]) (by simp [refStep, h3])

/-- C7: during reference import, a category is reported in the skipped set
exactly when some record of that unrecognized category occurs; a gene is
counted among the missing genes exactly when it is declared only implicitly
via a transcript record with no explicit gene record; and an unrecognized
record does not abort the import — the gene and transcript tables are exactly
those of the remaining records. -/
theorem from_reference_robust (recs : List RefRecord) :
    (∀ c, c ∈ (from_reference recs).skipped ↔ RefRecord.other c ∈ recs) ∧
    (∀ g, g ∈ ((from_reference recs).trGenes.filter
        (fun g2 => ¬ g2 ∈ (from_reference recs).explicitGenes)) ↔
      ((∃ t e, RefRecord.transcript g t e ∈ recs) ∧ RefRecord.gene g ∉ recs)) ∧
    (∀ c, (from_reference (RefRecord.other c :: recs)).explicitGenes =
        (from_reference recs).explicitGenes ∧
      (from_reference (RefRecord.other c :: recs)).trGenes = (from_reference recs).trGenes ∧
      (from_reference (RefRecord.other c :: recs)).trRecs = (from_reference recs).trRecs) := by
  refine ⟨fun c => ?_, fun g => ?_, fun c => ?_⟩
  · simp only [from_reference]
    rw [foldl_refStep_skipped]
    simp
  · rw [List.mem_filter]
    simp only [from_reference, decide_eq_true_eq]
    rw [foldl_refStep_trGenes, foldl_refStep_explicit]
    simp
  · unfold from_reference
    rw [List.foldl_cons]
    exact foldl_refStep_agree recs _ _ (by simp [refStep]) (by simp [refStep]) (by simp [refStep])

theorem getItem_unique (genes : List TGene) (g : TGene) (k : String)
    (hg : g ∈ genes) (hk : g.gid = k ∨ g.name = some k)
    (hu : ∀ g2 ∈ genes, (g2.gid = k ∨ g2.name = some k) → g2 = g) :
    getItem genes k = some g := by
  induction genes with
  | nil => exact absurd hg (List.not_mem_nil g)
  | cons a rest ih =>
    unfold getItem
    by_cases ha : (a.gid == k || a.name == some k) = true
    · have hag : a = g := hu a (List.mem_cons_self a rest) (by simpa using ha)
      subst hag
      exact List.find?_cons_of_pos rest ha
    · have hg2 : g ∈ rest := by
        rcases List.mem_cons.1 hg with he | hr
        · exfalso
          apply ha
          subst he
          simpa using hk
        · exact hr
      exact (List.find?_cons_of_neg rest (by simpa using ha)).trans
        (ih hg2 (fun g2 h2 hp => hu g2 (List.mem_cons_of_mem a h2) hp))

/-- C9: for a gene with both a stable id and a name, retrieval with the square
bracket operator by gene id and by gene name returns the same gene (the index
treats both ids and names as unique keys of the gene table). -/
theorem getItem_id_name_agree (genes : List TGene) (g : TGene) (n : String)
    (hg : g ∈ genes) (hn : g.name = some n)
    (hu : ∀ g2 ∈ genes,
      (g2.gid = g.gid ∨ g2.name = some g.gid ∨ g2.gid = n ∨ g2.name = some n) → g2 = g) :
    getItem genes g.gid = some g ∧ getItem genes n = some g ∧
      getItem genes g.gid = getItem genes n := by
  have h1 : getItem genes g.gid = some g :=
    getItem_unique genes g g.gid hg (Or.inl rfl)
      (fun g2 h2 hp => hu g2 h2 (by tauto))
  have h2 : getItem genes n = some g :=
    getItem_unique genes g n hg (Or.inr hn)
      (fun g2 h2 hp => hu g2 h2 (by tauto))
  exact ⟨h1, h2, h1.trans h2.symm⟩

/-- Witness for C9 on a concrete two-gene table. -/
theorem getItem_id_name_agree_witness :
    getItem [⟨"ENSG00000104312", some "RIPK2", 10, 20⟩, ⟨"ENSG00000104320", some "NBN", 30, 40⟩]
        "ENSG00000104312" = some ⟨"ENSG00000104312", some "RIPK2", 10, 20⟩ ∧
    getItem [⟨"ENSG00000104312", some "RIPK2", 10, 20⟩, ⟨"ENSG00000104320", some "NBN", 30, 40⟩]
        "RIPK2" = some ⟨"ENSG00000104312", some "RIPK2", 10, 20⟩ ∧
    getItem [⟨"ENSG00000104312", some "RIPK2", 10, 20⟩, ⟨"ENSG00000104320", some "NBN", 30, 40⟩]
        "ENSG00000104312" =
      getItem [⟨"ENSG00000104312", some "RIPK2", 10, 20⟩, ⟨"ENSG00000104320", some "NBN", 30, 40⟩]
        "RIPK2" :=
  getItem_id_name_agree
    [⟨"ENSG00000104312", some "RIPK2", 10, 20⟩, ⟨"ENSG00000104320", some "NBN", 30, 40⟩]
    ⟨"ENSG00000104312", some "RIPK2", 10, 20⟩ "RIPK2" (by decide) (by decide) (by decide)

theorem mem_trBlock (q : QExpr) (c : Nat) (g : IterGene) (x : IterGene × Nat × IterTr) :
    x ∈ trBlock q c g ↔
      x.1 = g ∧ g.trs.get? x.2.1 = some x.2.2 ∧ qeval x.2.2.tags q = true ∧
        c ≤ x.2.2.totalCov := by
  unfold trBlock
  rw [List.mem_filterMap]
  constructor
  · rintro ⟨i, _, hf⟩
    rcases hg : g.trs.get? i with _ | t
    · rw [hg] at hf
      dsimp only at hf
      cases hf
    · rw [hg] at hf
      dsimp only at hf
      by_cases hc : qeval t.tags q = true ∧ c ≤ t.totalCov
      · rw [if_pos hc] at hf
        cases hf
        exact ⟨rfl, hg, hc.1, hc.2⟩
      · rw [if_neg hc] at hf
        cases hf
  · obtain ⟨g0, i, t⟩ := x
    rintro ⟨h1, h2, h3, h4⟩
    dsimp only at h1 h2 h3 h4
    subst h1
    refine ⟨i, ?_, ?_⟩
    · rw [List.mem_range]
      have := List.get?_eq_some.1 h2
      exact this.1
    · rw [h2]
      dsimp only
      rw [if_pos ⟨h3, h4⟩]

theorem trBlock_elem_shape (q : QExpr) (c : Nat) (g : IterGene) (i : Nat)
    (x : IterGene × Nat × IterTr)
    (hx : x ∈ (match g.trs.get? i with
      | some t => if qeval t.tags q = true ∧ c ≤ t.totalCov then some (g, i, t) else none
      | none => none)) : x.1 = g ∧ x.2.1 = i := by
  rcases hg : g.trs.get? i with _ | t <;> rw [hg] at hx <;> dsimp only at hx
  · cases hx
  · by_cases hc : qeval t.tags q = true ∧ c ≤ t.totalCov
    · rw [if_pos hc] at hx
      cases hx
      exact ⟨rfl, rfl⟩
    · rw [if_neg hc] at hx
      cases hx

theorem pairwise_trBlock (q : QExpr) (c : Nat) (g : IterGene) :
    List.Pairwise tripleBefore (trBlock q c g) := by
  unfold trBlock
  refine List.Pairwise.filterMap _ ?_ (List.pairwise_lt_range g.trs.length)
  intro i j hij x hx y hy
  have hxs := trBlock_elem_shape q c g i x hx
  have hys := trBlock_elem_shape q c g j y hy
  right
  rw [hxs.1, hys.1, hxs.2, hys.2]
  exact ⟨rfl, hij⟩

/-- C8: the transcript iterator yields exactly the (gene, transcript index,
transcript) triples whose transcript satisfies the transcript-context query
and the per-transcript minimum coverage, in deterministic genomic order: by
gene start, then transcript index (gene starts are unique keys of the gene
index). -/
theorem iter_transcripts_spec (genes : List IterGene) (q : QExpr) (c : Nat)
    (hnd : (genes.map (fun g => g.start)).Nodup) :
    (∀ g i t, (g, i, t) ∈ iter_transcripts genes q c ↔
      (g ∈ genes ∧ g.trs.get? i = some t ∧ qeval t.tags q = true ∧ c ≤ t.totalCov)) ∧
    List.Pairwise tripleBefore (iter_transcripts genes q c) := by
  letI : IsTotal IterGene (fun g1 g2 => g1.start ≤ g2.start) :=
    ⟨fun a b => Nat.le_total a.start b.start⟩
  letI : IsTrans IterGene (fun g1 g2 => g1.start ≤ g2.start) :=
    ⟨fun a b c2 h1 h2 => Nat.le_trans h1 h2⟩
  constructor
  · intro g i t
    unfold iter_transcripts
    rw [List.mem_flatten]
    constructor
    · rintro ⟨l, hl, hx⟩
      rw [List.mem_map] at hl
      obtain ⟨g2, hg2, rfl⟩ := hl
      have hm := (mem_trBlock q c g2 (g, i, t)).1 hx
      have hgg : g = g2 := hm.1
      subst hgg
      exact ⟨(List.perm_insertionSort _ genes).mem_iff.1 hg2, hm.2.1, hm.2.2.1, hm.2.2.2⟩
    · rintro ⟨hg, h2, h3, h4⟩
      refine ⟨trBlock q c g, List.mem_map_of_mem _ ?_, ?_⟩
      · exact (List.perm_insertionSort _ genes).mem_iff.2 hg
      · exact (mem_trBlock q c g (g, i, t)).2 ⟨rfl, h2, h3, h4⟩
  · unfold iter_transcripts
    rw [List.pairwise_flatten]
    constructor
    · intro l hl
      rw [List.mem_map] at hl
      obtain ⟨g, _, rfl⟩ := hl
      exact pairwise_trBlock q c g
    · rw [List.pairwise_map]
      have hsorted : List.Pairwise (fun g1 g2 => g1.start ≤ g2.start)
          (List.insertionSort (fun g1 g2 => g1.start ≤ g2.start) genes) :=
        List.sorted_insertionSort _ genes
      have hnd2 : ((List.insertionSort (fun g1 g2 => g1.start ≤ g2.start) genes).map
          (fun g => g.start)).Nodup :=
        (((List.perm_insertionSort _ genes).map (fun g => g.start)).nodup_iff).2 hnd
      rw [List.Nodup, List.pairwise_map] at hnd2
      have hlt := (hsorted.and hnd2).imp
        (fun {a b} h => Nat.lt_of_le_of_ne h.1 h.2)
      refine hlt.imp ?_
      intro g1 g2 h x hx y hy
      have hx1 := (mem_trBlock q c g1 x).1 hx
      have hy1 := (mem_trBlock q c g2 y).1 hy
      left
      rw [hx1.1, hy1.1]
      exact h

/-- Witness for C8: a passing triple of a concrete gene table is yielded. -/
theorem iter_transcripts_spec_witness :
    ((⟨5, 50, [⟨["FSM"], 3⟩]⟩ : IterGene), 0, (⟨["FSM"], 3⟩ : IterTr)) ∈
      iter_transcripts [⟨5, 50, [⟨["FSM"], 3⟩]⟩, ⟨90, 120, []⟩] (.tag "FSM") 1 :=
  ((iter_transcripts_spec [⟨5, 50, [⟨["FSM"], 3⟩]⟩, ⟨90, 120, []⟩] (.tag "FSM") 1
      (by decide)).1 ⟨5, 50, [⟨["FSM"], 3⟩]⟩ 0 ⟨["FSM"], 3⟩).2
    ⟨by decide, by decide, by decide, by decide⟩

end Isotools
